import Mathlib

/-!
# Verification of the sattle proximity evaluator (`src/docker/sattle.cpp`)

A shallow embedding of `calc_sat` and its data structures over the real
numbers.  The external collaborators (`earth_lat_alt_to_parallax`,
`observer_cartesian_coords`, `select_ephemeris`, `SGP4`/`SDP4`,
`get_satellite_ra_dec_delta`, `epoch_of_date_to_j2000`) live in the
sat_code library, outside this repository's sources; they are modelled as
an arbitrary record of pure functions, matching the black-box contracts of
the specification.  Doubles are modelled as real numbers; the C library
function `fmod` is given its C99 semantics (remainder after truncation
toward zero).
-/

namespace Sattle

noncomputable section

/-- The constant `PI` of sattle.cpp (`#define PI 3.14159265358979323846...`),
modelled as the exact real π. -/
def PI : ℝ := Real.pi

/-- Truncation toward zero, as C's conversion/`trunc` used by `fmod`. -/
def ctrunc (x : ℝ) : ℤ := if 0 ≤ x then ⌊x⌋ else ⌈x⌉

/-- C99 `fmod x y = x - y * trunc (x / y)`; the result has the sign of `x`
(for `y > 0` it lies in `(-y, y)`, and in `[0, y)` only when `x ≥ 0`). -/
def fmod (x y : ℝ) : ℝ := x - y * ctrunc (x / y)

/-- The RA-difference normalization loop of `calc_sat` (sattle.cpp:150-151):
`while (d_ra > PI) d_ra -= PI + PI;`. -/
def wrap_ra (d : ℝ) : ℝ :=
  if h : d > PI then wrap_ra (d - (PI + PI)) else d
termination_by ⌈(d - PI) / (PI + PI)⌉₊
decreasing_by
  have hpi : (0:ℝ) < PI := Real.pi_pos
  have h2 : (0:ℝ) < PI + PI := by linarith
  have hx : (0:ℝ) < (d - PI) / (PI + PI) := div_pos (by linarith) h2
  have harg : (d - (PI + PI) - PI) / (PI + PI) = (d - PI) / (PI + PI) - 1 := by
    field_simp
    ring
  rw [harg]
  have hpos : 0 < ⌈(d - PI) / (PI + PI)⌉₊ := Nat.ceil_pos.mpr hx
  have hle : ⌈(d - PI) / (PI + PI) - 1⌉₊ ≤ ⌈(d - PI) / (PI + PI)⌉₊ - 1 := by
    apply Nat.ceil_le.mpr
    have := Nat.le_ceil ((d - PI) / (PI + PI))
    rw [Nat.cast_sub hpos, Nat.cast_one]
    linarith
  exact lt_of_le_of_lt hle (Nat.sub_lt hpos Nat.one_pos)

/-- Unfolding equation for `wrap_ra` when the loop guard fails. -/
theorem wrap_ra_of_le {d : ℝ} (h : d ≤ PI) : wrap_ra d = d := by
  rw [wrap_ra]
  simp [not_lt.mpr h]

/-- Unfolding equation for `wrap_ra` when the loop guard holds. -/
theorem wrap_ra_of_gt {d : ℝ} (h : d > PI) : wrap_ra d = wrap_ra (d - (PI + PI)) := by
  rw [wrap_ra]
  simp [h]

/-- The orbital element set `tle_t` (fields as bound in sattle.cpp's
pybind declarations; the numerical collaborators read it, never write it). -/
structure Tle where
  epoch : ℝ
  xndt2o : ℝ
  xndd6o : ℝ
  bstar : ℝ
  xincl : ℝ
  xnodeo : ℝ
  eo : ℝ
  omegao : ℝ
  xmo : ℝ
  xno : ℝ
  norad_number : ℤ
  bulletin_number : ℤ
  revolution_number : ℤ
  classification : Char
  ephemeris_type : Char
  intl_desig : String

/-- The `Inputs` struct of sattle.cpp, scratch fields included
(`rho_sin_phi`, `rho_cos_phi`, `i`, `header_line_shown` are working state
that `calc_sat` overwrites). -/
structure Inputs where
  lat : ℝ
  lon : ℝ
  ht_in_meters : ℝ
  jd : Fin 2 → ℝ
  search_radius : ℝ
  target_ra : ℝ
  target_dec : ℝ
  rho_sin_phi : ℝ
  rho_cos_phi : ℝ
  i : ℤ
  header_line_shown : ℤ

/-- The `Outputs` struct of sattle.cpp: per-epoch (ra, dec) in degrees,
initialized to the sentinel `{0, 0}`. -/
@[ext]
structure Outputs where
  ra : Fin 2 → ℝ
  dec : Fin 2 → ℝ

/-- A 3-vector of doubles (`double[3]`). -/
def Vec3 : Type := Fin 3 → ℝ

/-- The external collaborators of sat_code, as black-box pure functions.
`earth_lat_alt_to_parallax` returns `(rho_cos_phi, rho_sin_phi)` in the
order the C call writes them; `SGP4`/`SDP4` return the position vector
they store through `pos` together with their `int` status code (which
sattle.cpp discards); `epoch_of_date_to_j2000` returns the updated
`(ra, dec)` it writes back through its pointers. -/
structure Collab where
  earth_lat_alt_to_parallax : ℝ → ℝ → ℝ × ℝ
  observer_cartesian_coords : ℝ → ℝ → ℝ → ℝ → Vec3
  select_ephemeris : Tle → Bool
  SDP4_init : Tle → List ℝ
  SDP4 : ℝ → Tle → List ℝ → Vec3 × ℤ
  SGP4_init : Tle → List ℝ
  SGP4 : ℝ → Tle → List ℝ → Vec3 × ℤ
  get_satellite_ra_dec_delta : Vec3 → Vec3 → ℝ × ℝ × ℝ
  epoch_of_date_to_j2000 : ℝ → ℝ → ℝ → ℝ × ℝ

/-- The two parallax constants computed at the top of every loop
iteration (sattle.cpp:114-115), in the order the C call writes them:
`(rho_cos_phi, rho_sin_phi)`. -/
def parallaxConsts (C : Collab) (inputs : Inputs) : ℝ × ℝ :=
  C.earth_lat_alt_to_parallax (inputs.lat * PI / 180) inputs.ht_in_meters

/-- The apparent (ra, dec) at epoch `i`, i.e. the value of the local
variables `ra`, `dec` of `calc_sat` after `epoch_of_date_to_j2000`
(sattle.cpp:114-147): the composition of the collaborator chain.  The C
code stores the parallax constants into `inputs` and reads them back one
line later; here they are passed on directly, which is the same value
flow. -/
def apparentRaDec (C : Collab) (inputs : Inputs) (tle : Tle) (i : Fin 2) : ℝ × ℝ :=
  let pcs := parallaxConsts C inputs
  let observer_loc := C.observer_cartesian_coords (inputs.jd i) (inputs.lon * PI / 180)
      pcs.1 pcs.2
  let is_deep := C.select_ephemeris tle
  let t_since := (inputs.jd i - tle.epoch) * 1440
  let pos : Vec3 :=
    if is_deep then (C.SDP4 t_since tle (C.SDP4_init tle)).1
    else (C.SGP4 t_since tle (C.SGP4_init tle)).1
  let rdd := C.get_satellite_ra_dec_delta observer_loc pos
  C.epoch_of_date_to_j2000 (inputs.jd i) rdd.1 rdd.2.1

/-- The local variable `radius` of `calc_sat` at epoch `i`
(sattle.cpp:148-153), over an inputs record whose target fields already
hold radians (as they do inside the loop, after the in-place conversion at
sattle.cpp:108-109). -/
def radius_at (C : Collab) (tle : Tle) (inputs : Inputs) (i : Fin 2) : ℝ :=
  let rd := apparentRaDec C inputs tle i
  let d_ra := wrap_ra (rd.1 - inputs.target_ra + PI * 4)
  let d_dec := rd.2 - inputs.target_dec
  Real.sqrt (d_ra * d_ra + d_dec * d_dec) * 180 / PI

/-- The state of the `inputs` record at the end of a loop iteration: the
parallax constants were stored into it (sattle.cpp:114-115) and
`header_line_shown` was set to 1 (sattle.cpp:155). -/
def stepInputs (C : Collab) (inputs : Inputs) : Inputs :=
  { inputs with
      rho_cos_phi := (parallaxConsts C inputs).1,
      rho_sin_phi := (parallaxConsts C inputs).2,
      header_line_shown := 1 }

/-- One iteration of the `for (int i = 0; i < 2; ++i)` loop of `calc_sat`
(sattle.cpp:110-178), threading the mutable `inputs` record and the
`outputs` under construction.  `printf` calls have no semantic content and
are dropped, together with the re-check of `header_line_shown` inside the
match branch (sattle.cpp:164-167), which guards only a `printf` and a
re-assignment of the value 1 to a field that already holds 1. -/
def epochStep (C : Collab) (tle : Tle) (s : Inputs × Outputs) (i : Fin 2) :
    Inputs × Outputs :=
  let inputs := s.1
  let outputs := s.2
  let rd := apparentRaDec C inputs tle i
  let radius := radius_at C tle inputs i
  if radius < inputs.search_radius then
    (stepInputs C inputs,
      { outputs with
          ra := Function.update outputs.ra i
            (fmod (rd.1 + PI * 10) (PI + PI) * 180 / PI),
          dec := Function.update outputs.dec i (rd.2 * 180 / PI) })
  else
    (stepInputs C inputs, outputs)

/-- The in-place conversion of the target direction to radians
(sattle.cpp:108-109). -/
def convInputs (inputs0 : Inputs) : Inputs :=
  { inputs0 with
      target_ra := inputs0.target_ra * (PI / 180),
      target_dec := inputs0.target_dec * (PI / 180) }

/-- `calc_sat` (sattle.cpp:100-181): convert the target direction to
radians in place, run the two-epoch loop, return the outputs. -/
def calc_sat (C : Collab) (inputs0 : Inputs) (tle : Tle) : Outputs :=
  (List.foldl (epochStep C tle)
    (convInputs inputs0, ({ ra := fun _ => 0, dec := fun _ => 0 } : Outputs)) [0, 1]).2

/-- The local variable `radius` of `calc_sat` at epoch `i`, stated over
the raw (degree-valued) inputs record the caller passes in. -/
def offset_deg (C : Collab) (inputs : Inputs) (tle : Tle) (i : Fin 2) : ℝ :=
  let rd := apparentRaDec C inputs tle i
  let d_ra := wrap_ra (rd.1 - inputs.target_ra * (PI / 180) + PI * 4)
  let d_dec := rd.2 - inputs.target_dec * (PI / 180)
  Real.sqrt (d_ra * d_ra + d_dec * d_dec) * 180 / PI

/-- The per-epoch result of `calc_sat`: matched epochs get the
re-normalized RA and the declination in degrees, unmatched epochs keep
the sentinel `(0, 0)`. -/
def epochResult (C : Collab) (inputs : Inputs) (tle : Tle) (i : Fin 2) : ℝ × ℝ :=
  if offset_deg C inputs tle i < inputs.search_radius then
    (fmod ((apparentRaDec C inputs tle i).1 + PI * 10) (PI + PI) * 180 / PI,
     (apparentRaDec C inputs tle i).2 * 180 / PI)
  else (0, 0)

/-- The collaborator chain reads neither the target fields nor the scratch
fields, so it is unaffected by the in-place target conversion. -/
theorem apparentRaDec_convInputs (C : Collab) (inputs : Inputs) (tle : Tle)
    (i : Fin 2) : apparentRaDec C (convInputs inputs) tle i = apparentRaDec C inputs tle i :=
  rfl

/-- Nor is it affected by the end-of-iteration scratch-field writes. -/
theorem apparentRaDec_stepInputs (C : Collab) (inputs : Inputs) (tle : Tle)
    (i : Fin 2) : apparentRaDec C (stepInputs C inputs) tle i = apparentRaDec C inputs tle i :=
  rfl

/-- On the radian-converted record, `radius_at` is the offset stated over
the caller's degree-valued record. -/
theorem radius_at_convInputs (C : Collab) (inputs : Inputs) (tle : Tle) (i : Fin 2) :
    radius_at C tle (convInputs inputs) i = offset_deg C inputs tle i :=
  rfl

/-- The scratch-field writes do not change the radius either. -/
theorem radius_at_stepInputs (C : Collab) (inputs : Inputs) (tle : Tle) (i : Fin 2) :
    radius_at C tle (stepInputs C inputs) i = radius_at C tle inputs i :=
  rfl

theorem stepInputs_search_radius (C : Collab) (inputs : Inputs) :
    (stepInputs C inputs).search_radius = inputs.search_radius :=
  rfl

theorem convInputs_search_radius (inputs : Inputs) :
    (convInputs inputs).search_radius = inputs.search_radius :=
  rfl

/-- The two components of one loop iteration. -/
theorem epochStep_eq (C : Collab) (tle : Tle) (s : Inputs × Outputs) (i : Fin 2) :
    epochStep C tle s i =
      (stepInputs C s.1,
        if radius_at C tle s.1 i < s.1.search_radius then
          { s.2 with
              ra := Function.update s.2.ra i
                (fmod ((apparentRaDec C s.1 tle i).1 + PI * 10) (PI + PI) * 180 / PI),
              dec := Function.update s.2.dec i
                ((apparentRaDec C s.1 tle i).2 * 180 / PI) }
        else s.2) := by
  simp only [epochStep]
  split <;> rfl

/-- Bridge lemma: the state-threading two-epoch loop of `calc_sat`
computes `epochResult` slot by slot. -/
theorem calc_sat_eq_epochResult (C : Collab) (inputs : Inputs) (tle : Tle) :
    calc_sat C inputs tle =
      { ra := fun i => (epochResult C inputs tle i).1,
        dec := fun i => (epochResult C inputs tle i).2 } := by
  simp only [calc_sat, List.foldl, epochStep_eq, radius_at_stepInputs,
    radius_at_convInputs, apparentRaDec_stepInputs, apparentRaDec_convInputs,
    stepInputs_search_radius, convInputs_search_radius, epochResult]
  by_cases h0 : offset_deg C inputs tle 0 < inputs.search_radius <;>
    by_cases h1 : offset_deg C inputs tle 1 < inputs.search_radius <;>
    simp only [h0, h1, if_true, if_false] <;>
    ext j <;> fin_cases j <;>
    simp [h0, h1, Function.update, Fin.ext_iff]

/-- The loop only ever pulls `d_ra` down: its result never exceeds `PI`. -/
theorem wrap_ra_le (d : ℝ) : wrap_ra d ≤ PI := by
  induction d using wrap_ra.induct with
  | case1 d h ih => rwa [wrap_ra_of_gt h]
  | case2 d h => rw [wrap_ra_of_le (not_lt.mp h)]; exact not_lt.mp h

/-- On `(-PI, PI]` the loop is the identity, and adding whole turns of
`PI + PI` before entering it changes nothing. -/
theorem wrap_ra_period {d : ℝ} (h1 : -PI < d) (h2 : d ≤ PI) :
    ∀ k : ℕ, wrap_ra (d + (PI + PI) * k) = d := by
  intro k
  induction k with
  | zero => simpa using wrap_ra_of_le h2
  | succ k ih =>
    have hpi : (0:ℝ) < PI := Real.pi_pos
    have hk : (0:ℝ) ≤ (k : ℝ) := Nat.cast_nonneg k
    have hgt : d + (PI + PI) * ((k : ℕ) + 1 : ℕ) > PI := by
      push_cast
      nlinarith
    rw [wrap_ra_of_gt hgt]
    have harg : d + (PI + PI) * ((k : ℕ) + 1 : ℕ) - (PI + PI)
        = d + (PI + PI) * k := by
      push_cast
      ring
    rw [harg, ih]

/-- The loop subtracts a whole number of turns. -/
theorem wrap_ra_sub_turns (d : ℝ) : ∃ k : ℕ, wrap_ra d = d - (PI + PI) * k := by
  induction d using wrap_ra.induct with
  | case1 d h ih =>
    obtain ⟨k, hk⟩ := ih
    refine ⟨k + 1, ?_⟩
    rw [wrap_ra_of_gt h, hk]
    push_cast
    ring
  | case2 d h =>
    exact ⟨0, by rw [wrap_ra_of_le (not_lt.mp h)]; push_cast; ring⟩

/-- The `while (d_ra > PI)` loop with an explicit fuel bound: `none` means
the fuel ran out before the guard failed. -/
def wrapFuel : ℕ → ℝ → Option ℝ
  | 0, d => if d > PI then none else some d
  | n + 1, d => if d > PI then wrapFuel n (d - (PI + PI)) else some d

/-- A collaborator record whose coordinate chain reports the constant
apparent direction `(ra0, dec0)` (radians); the propagators report a
zero position with status 0.  Used to exercise `calc_sat` at concrete
apparent positions. -/
def constCollab (ra0 dec0 : ℝ) : Collab where
  earth_lat_alt_to_parallax := fun _ _ => (0, 0)
  observer_cartesian_coords := fun _ _ _ _ => fun _ => 0
  select_ephemeris := fun _ => false
  SDP4_init := fun _ => []
  SDP4 := fun _ _ _ => (fun _ => 0, 0)
  SGP4_init := fun _ => []
  SGP4 := fun _ _ _ => (fun _ => 0, 0)
  get_satellite_ra_dec_delta := fun _ _ => (0, 0, 0)
  epoch_of_date_to_j2000 := fun _ _ _ => (ra0, dec0)

/-- An all-zero element set. -/
def tle0 : Tle :=
  ⟨0, 0, 0, 0, 0, 0, 0, 0, 0, 0, 0, 0, 0, 'U', '0', ""⟩

/-- Under `constCollab` the apparent direction is the given constant. -/
theorem apparentRaDec_constCollab (ra0 dec0 : ℝ) (inputs : Inputs) (tle : Tle)
    (i : Fin 2) : apparentRaDec (constCollab ra0 dec0) inputs tle i = (ra0, dec0) := by
  simp [apparentRaDec, constCollab]

/-- A degenerate input record: target `(0°, 0°)`, search radius `r`,
every other field zero. -/
def zeroInputs (r : ℝ) : Inputs :=
  ⟨0, 0, 0, fun _ => 0, r, 0, 0, 0, 0, 0, 0⟩

/-- C1: for each epoch index i in {0,1}: if the computed offset_deg is
strictly less than search_radius, the result slot for epoch i holds
((ra + 10π) mod 2π) and dec, both converted to degrees; otherwise the
slot for epoch i is left at the sentinel pair (0, 0). -/
theorem calc_sat_slot_spec (C : Collab) (inputs : Inputs) (tle : Tle) (i : Fin 2) :
    (calc_sat C inputs tle).ra i =
      (if offset_deg C inputs tle i < inputs.search_radius
       then fmod ((apparentRaDec C inputs tle i).1 + PI * 10) (PI + PI) * 180 / PI
       else 0)
    ∧ (calc_sat C inputs tle).dec i =
      (if offset_deg C inputs tle i < inputs.search_radius
       then (apparentRaDec C inputs tle i).2 * 180 / PI
       else 0) := by
  rw [calc_sat_eq_epochResult]
  unfold epochResult
  constructor <;> split <;> rename_i h <;> simp [h]

/-- Modelled from the spec (§4.3): the planar Euclidean offset formula
`sqrt(d_ra² + d_dec²) · 180/π`. -/
def planar_offset_deg (d_ra d_dec : ℝ) : ℝ :=
  Real.sqrt (d_ra ^ 2 + d_dec ^ 2) * 180 / PI

/-- C3: for every epoch, the angular offset is the planar Euclidean
distance `sqrt(d_ra² + d_dec²)·180/π` over the radian differences, with
`d_dec = dec - target_dec` unwrapped; and it carries no `cos(dec)`
factor: it differs from the cos-corrected metric at a concrete input. -/
theorem offset_is_planar_euclidean :
    (∀ (C : Collab) (inputs : Inputs) (tle : Tle) (i : Fin 2),
      offset_deg C inputs tle i =
        planar_offset_deg
          (wrap_ra ((apparentRaDec C inputs tle i).1
              - inputs.target_ra * (PI / 180) + PI * 4))
          ((apparentRaDec C inputs tle i).2 - inputs.target_dec * (PI / 180)))
    ∧ (∃ (C : Collab) (inputs : Inputs) (tle : Tle) (i : Fin 2),
      offset_deg C inputs tle i ≠
        planar_offset_deg
          (wrap_ra ((apparentRaDec C inputs tle i).1
              - inputs.target_ra * (PI / 180) + PI * 4)
            * Real.cos (apparentRaDec C inputs tle i).2)
          ((apparentRaDec C inputs tle i).2 - inputs.target_dec * (PI / 180))) := by
  have hpi : (0:ℝ) < PI := Real.pi_pos
  constructor
  · intro C inputs tle i
    simp only [offset_deg, planar_offset_deg]
    ring_nf
  · refine ⟨constCollab (PI / 2) (PI / 3),
      ⟨0, 0, 0, fun _ => 0, 10, 0, 60, 0, 0, 0, 0⟩, tle0, 0, ?_⟩
    have hwrap : wrap_ra (PI / 2 - 0 * (PI / 180) + PI * 4) = PI / 2 := by
      have h := wrap_ra_period (d := PI / 2) (by linarith) (by linarith) 2
      have : PI / 2 - 0 * (PI / 180) + PI * 4 = PI / 2 + (PI + PI) * (2:ℕ) := by
        push_cast; ring
      rw [this, h]
    have hdec : PI / 3 - (60:ℝ) * (PI / 180) = 0 := by ring
    simp only [offset_deg, planar_offset_deg, apparentRaDec_constCollab, hwrap, hdec]
    have hcos : Real.cos (PI / 3) = 1 / 2 := by
      have : PI / 3 = Real.pi / 3 := by rw [PI]
      rw [this, Real.cos_pi_div_three]
    rw [hcos]
    have h1 : Real.sqrt (PI / 2 * (PI / 2) + 0 * 0) = PI / 2 := by
      rw [show PI / 2 * (PI / 2) + 0 * 0 = (PI / 2) ^ 2 by ring]
      exact Real.sqrt_sq (by linarith)
    have h2 : Real.sqrt ((PI / 2 * (1 / 2)) ^ 2 + 0 ^ 2) = PI / 4 := by
      rw [show (PI / 2 * (1 / 2)) ^ 2 + (0:ℝ) ^ 2 = (PI / 4) ^ 2 by ring]
      exact Real.sqrt_sq (by linarith)
    rw [h1, h2]
    intro hcontra
    have hne : PI ≠ 0 := ne_of_gt hpi
    field_simp at hcontra
    rcases hcontra with h | h
    · exact absurd h (by norm_num)
    · exact hne h

/-- C10: the RA normalization loop terminates on every real input: some
finite fuel suffices to reach the value of `wrap_ra`, which differs from
its argument by a whole number of `2π` subtractions (in the real-number
embedding every input is finite). -/
theorem wrap_loop_terminates (d : ℝ) :
    (∃ n : ℕ, wrapFuel n d = some (wrap_ra d))
    ∧ ∃ k : ℕ, wrap_ra d = d - (PI + PI) * k := by
  refine ⟨?_, wrap_ra_sub_turns d⟩
  induction d using wrap_ra.induct with
  | case1 d h ih =>
    obtain ⟨n, hn⟩ := ih
    exact ⟨n + 1, by rw [wrapFuel, if_pos h, hn, wrap_ra_of_gt h]⟩
  | case2 d h =>
    exact ⟨1, by rw [wrapFuel, if_neg h, wrap_ra_of_le (not_lt.mp h)]⟩

/-- Evaluation of the offset at a constant apparent direction. -/
theorem offset_deg_const (ra0 dec0 : ℝ) (inputs : Inputs) (tle : Tle) (i : Fin 2) :
    offset_deg (constCollab ra0 dec0) inputs tle i =
      Real.sqrt (wrap_ra (ra0 - inputs.target_ra * (PI / 180) + PI * 4) ^ 2
        + (dec0 - inputs.target_dec * (PI / 180)) ^ 2) * 180 / PI := by
  simp only [offset_deg, apparentRaDec_constCollab]
  ring_nf

/-- C2: for every epoch, `d_ra = ra - target_ra + 4π` reduced by
subtracting `2π` while above `π` is always ≤ π but not guaranteed ≥ -π;
and for target RA 1° with apparent RA 359° the offset is 2°, not 358°. -/
theorem d_ra_asymmetric_wraparound :
    (∀ ra t_ra : ℝ, wrap_ra (ra - t_ra + PI * 4) ≤ PI)
    ∧ (∃ ra t_ra : ℝ, wrap_ra (ra - t_ra + PI * 4) < -PI)
    ∧ offset_deg (constCollab (359 * (PI / 180)) 0)
        ⟨0, 0, 0, fun _ => 0, 10, 1, 0, 0, 0, 0, 0⟩ tle0 0 = 2 := by
  have hpi : (0:ℝ) < PI := Real.pi_pos
  refine ⟨fun ra t_ra => wrap_ra_le _, ⟨0, PI * 6, ?_⟩, ?_⟩
  · have h : (0:ℝ) - PI * 6 + PI * 4 = -(PI + PI) := by ring
    rw [h, wrap_ra_of_le (by linarith)]
    linarith
  · rw [offset_deg_const]
    have hwrap : wrap_ra (359 * (PI / 180) - (1:ℝ) * (PI / 180) + PI * 4)
        = -(PI / 90) := by
      have harg : 359 * (PI / 180) - (1:ℝ) * (PI / 180) + PI * 4
          = -(PI / 90) + (PI + PI) * ((3:ℕ):ℝ) := by push_cast; ring
      rw [harg]
      exact wrap_ra_period (by linarith) (by linarith) 3
    have hproj : (⟨0, 0, 0, fun _ => 0, 10, 1, 0, 0, 0, 0, 0⟩ : Inputs).target_ra = 1 :=
      rfl
    have hproj2 : (⟨0, 0, 0, fun _ => 0, 10, 1, 0, 0, 0, 0, 0⟩ : Inputs).target_dec = 0 :=
      rfl
    rw [hproj, hproj2, hwrap]
    have hsq : (-(PI / 90)) ^ 2 + ((0:ℝ) - 0 * (PI / 180)) ^ 2 = (PI / 90) ^ 2 := by
      ring
    rw [hsq, Real.sqrt_sq (by linarith)]
    field_simp
    ring

/-- C5: for every input with search_radius ≤ 0, no epoch ever matches
(the match test is strict `<` and the offset is always ≥ 0), so the
result is the sentinel (0, 0) for both epochs. -/
theorem nonpositive_radius_never_matches (C : Collab) (inputs : Inputs) (tle : Tle)
    (h : inputs.search_radius ≤ 0) :
    calc_sat C inputs tle = { ra := fun _ => 0, dec := fun _ => 0 } := by
  have hpi : (0:ℝ) < PI := Real.pi_pos
  have hnn : ∀ i, 0 ≤ offset_deg C inputs tle i := by
    intro i
    simp only [offset_deg]
    apply div_nonneg _ hpi.le
    exact mul_nonneg (Real.sqrt_nonneg _) (by norm_num)
  rw [calc_sat_eq_epochResult]
  ext i <;> simp [epochResult, not_lt.mpr (h.trans (hnn i))]

/-- Witness for C5 at a concrete input with search radius exactly 0. -/
theorem nonpositive_radius_never_matches_witness :
    (zeroInputs 0).search_radius ≤ 0
    ∧ calc_sat (constCollab 0 0) (zeroInputs 0) tle0
        = { ra := fun _ => 0, dec := fun _ => 0 } :=
  ⟨le_refl 0, nonpositive_radius_never_matches _ _ _ (le_refl 0)⟩

/-- C6: `calc_sat` is a pure function of `(site, request, elements)`: its
result does not depend on the scratch fields of the `Inputs` record
(`rho_sin_phi`, `rho_cos_phi`, `i`, `header_line_shown`), which is the
only hidden state a run could carry. -/
theorem calc_sat_ignores_scratch_state (C : Collab) (inputs : Inputs) (tle : Tle)
    (rs rc : ℝ) (ii hh : ℤ) :
    calc_sat C
      { inputs with rho_sin_phi := rs, rho_cos_phi := rc, i := ii,
                    header_line_shown := hh } tle
      = calc_sat C inputs tle := by
  rw [calc_sat_eq_epochResult, calc_sat_eq_epochResult]
  ext j <;> rfl

/-- The transposition of the two epoch indices. -/
def swap01 : Fin 2 → Fin 2 := fun j => if j = 0 then 1 else 0

/-- C7: the two epoch results are computed independently: swapping
`jd[0]` and `jd[1]` swaps the output (ra, dec) pairs identically, with no
cross-epoch interaction. -/
theorem epoch_results_independent (C : Collab) (inputs : Inputs) (tle : Tle)
    (i : Fin 2) :
    (calc_sat C { inputs with jd := fun j => inputs.jd (swap01 j) } tle).ra i
        = (calc_sat C inputs tle).ra (swap01 i)
    ∧ (calc_sat C { inputs with jd := fun j => inputs.jd (swap01 j) } tle).dec i
        = (calc_sat C inputs tle).dec (swap01 i) := by
  have key : ∀ j, epochResult C { inputs with jd := fun k => inputs.jd (swap01 k) } tle j
      = epochResult C inputs tle (swap01 j) := fun j => rfl
  rw [calc_sat_eq_epochResult, calc_sat_eq_epochResult]
  exact ⟨by simp [key], by simp [key]⟩

/-- C8: the `int` status the propagators return is discarded by
`calc_sat` (sattle.cpp:138,143 ignore the return value): replacing it by
arbitrary values changes nothing, and the function always returns a
complete `Outputs` with no error path — collaborator failures are masked,
not surfaced. -/
theorem propagator_status_discarded (C : Collab) (inputs : Inputs) (tle : Tle)
    (e e' : ℤ) :
    calc_sat { C with SGP4 := fun t s p => ((C.SGP4 t s p).1, e),
                      SDP4 := fun t s p => ((C.SDP4 t s p).1, e') } inputs tle
      = calc_sat C inputs tle := by
  rw [calc_sat_eq_epochResult, calc_sat_eq_epochResult]
  ext j <;> rfl

/-- The collaborators that receive `&tle`, modelled as free to update the
pointee: each returns its result together with the (possibly modified)
element set.  This over-approximates the sat_code routines, which take the
pointer but do not write through it. -/
structure MutProp where
  select_ephemeris : Tle → Bool × Tle
  SDP4_init : Tle → List ℝ × Tle
  SDP4 : ℝ → List ℝ → Tle → (Vec3 × ℤ) × Tle
  SGP4_init : Tle → List ℝ × Tle
  SGP4 : ℝ → List ℝ → Tle → (Vec3 × ℤ) × Tle

/-- One loop iteration of `calc_sat` with the local `tle` copy threaded
through the pointer-receiving collaborators, in call order
(`select_ephemeris`, then `SXP4_init`, then `SXP4`). -/
def epochStepMut (C : Collab) (M : MutProp) (s : (Inputs × Outputs) × Tle)
    (i : Fin 2) : (Inputs × Outputs) × Tle :=
  let inputs := s.1.1
  let outputs := s.1.2
  let pcs := parallaxConsts C inputs
  let observer_loc := C.observer_cartesian_coords (inputs.jd i) (inputs.lon * PI / 180)
      pcs.1 pcs.2
  let se := M.select_ephemeris s.2
  let t_since := (inputs.jd i - se.2.epoch) * 1440
  let pt : (Vec3 × ℤ) × Tle :=
    if se.1 then
      let ini := M.SDP4_init se.2
      M.SDP4 t_since ini.1 ini.2
    else
      let ini := M.SGP4_init se.2
      M.SGP4 t_since ini.1 ini.2
  let rdd := C.get_satellite_ra_dec_delta observer_loc pt.1.1
  let rd := C.epoch_of_date_to_j2000 (inputs.jd i) rdd.1 rdd.2.1
  let d_ra := wrap_ra (rd.1 - inputs.target_ra + PI * 4)
  let d_dec := rd.2 - inputs.target_dec
  let radius := Real.sqrt (d_ra * d_ra + d_dec * d_dec) * 180 / PI
  if radius < inputs.search_radius then
    ((stepInputs C inputs,
      { outputs with
          ra := Function.update outputs.ra i
            (fmod (rd.1 + PI * 10) (PI + PI) * 180 / PI),
          dec := Function.update outputs.dec i (rd.2 * 180 / PI) }), pt.2)
  else
    ((stepInputs C inputs, outputs), pt.2)

/-- The body of `calc_sat` operating on a local `tle` copy that the
pointer-receiving collaborators may mutate; returns the outputs together
with the final state of the local copy. -/
def calc_sat_mut (C : Collab) (M : MutProp) (inputs0 : Inputs) (tle : Tle) :
    Outputs × Tle :=
  let s := List.foldl (epochStepMut C M)
      ((convInputs inputs0, ({ ra := fun _ => 0, dec := fun _ => 0 } : Outputs)), tle)
      [0, 1]
  (s.1.2, s.2)

/-- The call `calc_sat(inputs, tle)` as the caller sees it: `tle_t` is a
by-value parameter (sattle.cpp:100), so the callee body works on a copy
of `callerTle` and the caller's variable keeps its value. -/
def calc_sat_call (C : Collab) (M : MutProp) (inputs : Inputs) (callerTle : Tle) :
    Outputs × Tle :=
  ((calc_sat_mut C M inputs callerTle).1, callerTle)

/-- The sat_code routines as a `MutProp`: they read the pointee and leave
it unchanged (their `tle_t` parameters are `const`). -/
def constProp (C : Collab) : MutProp where
  select_ephemeris := fun t => (C.select_ephemeris t, t)
  SDP4_init := fun t => (C.SDP4_init t, t)
  SDP4 := fun ts p t => (C.SDP4 ts t p, t)
  SGP4_init := fun t => (C.SGP4_init t, t)
  SGP4 := fun ts p t => (C.SGP4 ts t p, t)

/-- Under non-mutating collaborators the threaded step is the plain step. -/
theorem epochStepMut_const (C : Collab) (t : Tle) (s : Inputs × Outputs) (i : Fin 2) :
    epochStepMut C (constProp C) (s, t) i = (epochStep C t s i, t) := by
  simp only [epochStepMut, constProp, epochStep, radius_at, apparentRaDec]
  cases C.select_ephemeris t <;> simp <;> split <;> rfl

/-- C9: the caller's element set is unchanged by the call — `tle_t` is
passed by value, so even collaborators that write through their `tle`
pointer only touch the local copy; and with the actual (non-mutating)
collaborators the call computes exactly `calc_sat`. -/
theorem caller_tle_unchanged (C : Collab) (M : MutProp) (inputs : Inputs) (tle : Tle) :
    (calc_sat_call C M inputs tle).2 = tle
    ∧ (calc_sat_call C (constProp C) inputs tle).1 = calc_sat C inputs tle := by
  refine ⟨rfl, ?_⟩
  simp only [calc_sat_call, calc_sat_mut, calc_sat, List.foldl]
  rw [epochStepMut_const, epochStepMut_const]

/-- For a nonnegative dividend and positive divisor, C `fmod` lands in
`[0, y)`. -/
theorem fmod_nonneg_lt {x y : ℝ} (hx : 0 ≤ x) (hy : 0 < y) :
    0 ≤ fmod x y ∧ fmod x y < y := by
  have hq : 0 ≤ x / y := div_nonneg hx hy.le
  have hy' : y ≠ 0 := hy.ne'
  have hrw : fmod x y = y * Int.fract (x / y) := by
    simp only [fmod, ctrunc, if_pos hq, Int.fract]
    field_simp
  rw [hrw]
  refine ⟨mul_nonneg hy.le (Int.fract_nonneg _), ?_⟩
  calc y * Int.fract (x / y) < y * 1 := (mul_lt_mul_left hy).mpr (Int.fract_lt_one _)
    _ = y := mul_one y

/-- C4 (amended): whenever an epoch is matched, provided the apparent
right ascension is at least `-10π` (true of any value the transforms can
produce, which lie within one turn of `[0, 2π)`) and the apparent
declination is within `[-π/2, π/2]` (the transform's contract), the
matched RA output lies in `[0, 360)` and the dec output in `[-90, 90]`. -/
theorem matched_output_in_range (C : Collab) (inputs : Inputs) (tle : Tle) (i : Fin 2)
    (hra : -(PI * 10) ≤ (apparentRaDec C inputs tle i).1)
    (hdec₁ : -(PI / 2) ≤ (apparentRaDec C inputs tle i).2)
    (hdec₂ : (apparentRaDec C inputs tle i).2 ≤ PI / 2)
    (hmatch : offset_deg C inputs tle i < inputs.search_radius) :
    (0 ≤ (calc_sat C inputs tle).ra i ∧ (calc_sat C inputs tle).ra i < 360)
    ∧ -90 ≤ (calc_sat C inputs tle).dec i ∧ (calc_sat C inputs tle).dec i ≤ 90 := by
  have hpi : (0:ℝ) < PI := Real.pi_pos
  rw [calc_sat_eq_epochResult]
  simp only [epochResult, if_pos hmatch]
  have h2pi : (0:ℝ) < PI + PI := by linarith
  obtain ⟨hf0, hf1⟩ :=
    fmod_nonneg_lt (x := (apparentRaDec C inputs tle i).1 + PI * 10) (by linarith) h2pi
  refine ⟨⟨?_, ?_⟩, ?_, ?_⟩
  · exact div_nonneg (mul_nonneg hf0 (by norm_num)) hpi.le
  · rw [div_lt_iff hpi]
    nlinarith
  · rw [le_div_iff hpi]
    nlinarith
  · rw [div_le_iff hpi]
    nlinarith

/-- Inputs with target `(0°, 0°)` and search radius 100°. -/
def inputsW4 : Inputs := ⟨0, 0, 0, fun _ => 0, 100, 0, 0, 0, 0, 0, 0⟩

/-- At apparent direction `(π/2, 0)` and target `(0°, 0°)` the offset is
exactly 90°. -/
theorem offset_deg_inputsW4 :
    offset_deg (constCollab (PI / 2) 0) inputsW4 tle0 0 = 90 := by
  have hpi : (0:ℝ) < PI := Real.pi_pos
  rw [offset_deg_const]
  have hproj : inputsW4.target_ra = 0 := rfl
  have hproj2 : inputsW4.target_dec = 0 := rfl
  rw [hproj, hproj2]
  have hwrap : wrap_ra (PI / 2 - (0:ℝ) * (PI / 180) + PI * 4) = PI / 2 := by
    have harg : PI / 2 - (0:ℝ) * (PI / 180) + PI * 4
        = PI / 2 + (PI + PI) * ((2:ℕ):ℝ) := by push_cast; ring
    rw [harg]
    exact wrap_ra_period (by linarith) (by linarith) 2
  rw [hwrap]
  have hsq : (PI / 2) ^ 2 + ((0:ℝ) - 0 * (PI / 180)) ^ 2 = (PI / 2) ^ 2 := by ring
  rw [hsq, Real.sqrt_sq (by linarith)]
  field_simp
  ring

/-- Witness for C4 (amended) at a concrete matched input. -/
theorem matched_output_in_range_witness :
    (-(PI * 10) ≤ (apparentRaDec (constCollab (PI / 2) 0) inputsW4 tle0 0).1
      ∧ -(PI / 2) ≤ (apparentRaDec (constCollab (PI / 2) 0) inputsW4 tle0 0).2
      ∧ (apparentRaDec (constCollab (PI / 2) 0) inputsW4 tle0 0).2 ≤ PI / 2
      ∧ offset_deg (constCollab (PI / 2) 0) inputsW4 tle0 0 < inputsW4.search_radius)
    ∧ (0 ≤ (calc_sat (constCollab (PI / 2) 0) inputsW4 tle0).ra 0
        ∧ (calc_sat (constCollab (PI / 2) 0) inputsW4 tle0).ra 0 < 360)
      ∧ -90 ≤ (calc_sat (constCollab (PI / 2) 0) inputsW4 tle0).dec 0
      ∧ (calc_sat (constCollab (PI / 2) 0) inputsW4 tle0).dec 0 ≤ 90 := by
  have hpi : (0:ℝ) < PI := Real.pi_pos
  have h1 : -(PI * 10) ≤ (apparentRaDec (constCollab (PI / 2) 0) inputsW4 tle0 0).1 := by
    rw [apparentRaDec_constCollab]
    simp only
    linarith
  have h2 : -(PI / 2) ≤ (apparentRaDec (constCollab (PI / 2) 0) inputsW4 tle0 0).2 := by
    rw [apparentRaDec_constCollab]
    simp only
    linarith
  have h3 : (apparentRaDec (constCollab (PI / 2) 0) inputsW4 tle0 0).2 ≤ PI / 2 := by
    rw [apparentRaDec_constCollab]
    simp only
    linarith
  have h4 : offset_deg (constCollab (PI / 2) 0) inputsW4 tle0 0
      < inputsW4.search_radius := by
    rw [offset_deg_inputsW4]
    norm_num [inputsW4]
  exact ⟨⟨h1, h2, h3, h4⟩, matched_output_in_range _ _ _ _ h1 h2 h3 h4⟩

/-- Inputs with target `(0°, 0°)` and search radius 2000°. -/
def inputsBig : Inputs := ⟨0, 0, 0, fun _ => 0, 2000, 0, 0, 0, 0, 0, 0⟩

/-- Counterexample to C4 as stated: at apparent direction `(-13π, 0)` —
a value the spec's collaborator contracts do not exclude — the epoch is
matched, yet the RA written to the result slot is `-180 ∉ [0, 360)`:
`fmod(ra + 10π, 2π)` is negative for `ra < -10π`. -/
theorem matched_output_range_cex :
    offset_deg (constCollab (-(13 * PI)) 0) inputsBig tle0 0 < inputsBig.search_radius
    ∧ (calc_sat (constCollab (-(13 * PI)) 0) inputsBig tle0).ra 0 = -180
    ∧ (calc_sat (constCollab (-(13 * PI)) 0) inputsBig tle0).ra 0
        ∉ Set.Ico (0:ℝ) 360 := by
  have hpi : (0:ℝ) < PI := Real.pi_pos
  have hne : PI ≠ 0 := hpi.ne'
  have hoffset : offset_deg (constCollab (-(13 * PI)) 0) inputsBig tle0 0 = 1620 := by
    rw [offset_deg_const]
    have hproj : inputsBig.target_ra = 0 := rfl
    have hproj2 : inputsBig.target_dec = 0 := rfl
    rw [hproj, hproj2]
    have harg : -(13 * PI) - (0:ℝ) * (PI / 180) + PI * 4 = -(9 * PI) := by ring
    rw [harg, wrap_ra_of_le (by linarith)]
    have hsq : (-(9 * PI)) ^ 2 + ((0:ℝ) - 0 * (PI / 180)) ^ 2 = (9 * PI) ^ 2 := by ring
    rw [hsq, Real.sqrt_sq (by linarith)]
    field_simp
    ring
  have hmatch : offset_deg (constCollab (-(13 * PI)) 0) inputsBig tle0 0
      < inputsBig.search_radius := by
    rw [hoffset]
    norm_num [inputsBig]
  have hslot : (calc_sat (constCollab (-(13 * PI)) 0) inputsBig tle0).ra 0 = -180 := by
    rw [calc_sat_eq_epochResult]
    simp only [epochResult, if_pos hmatch, apparentRaDec_constCollab]
    have hx : -(13 * PI) + PI * 10 = -(3 * PI) := by ring
    rw [hx]
    have hdiv : -(3 * PI) / (PI + PI) = -(3 / 2 : ℝ) := by
      rw [div_eq_iff (by linarith : PI + PI ≠ 0)]
      ring
    have hneg : ¬ (0:ℝ) ≤ -(3 / 2 : ℝ) := by norm_num
    have hceil : ⌈(-(3 / 2 : ℝ))⌉ = -1 := by
      rw [Int.ceil_eq_iff]
      constructor <;> norm_num
    have hfmod : fmod (-(3 * PI)) (PI + PI) = -PI := by
      simp only [fmod, ctrunc, hdiv, if_neg hneg, hceil]
      push_cast
      ring
    rw [hfmod]
    field_simp
    ring
  refine ⟨hmatch, hslot, ?_⟩
  rw [hslot]
  norm_num [Set.mem_Ico]

end

end Sattle
